import Mathlib

/-!
Shallow embedding of the J-Quants screening core (`src/jquants_api.py`) and
verification of its specification claims.

Conventions of the embedding:
* pandas float scalars are modelled by `PValue` (a rational number, `+inf`,
  `-inf`, or `NaN`); pandas treats only `NaN` as null (`isna`), infinities are
  non-null, and every comparison involving `NaN` is false.
* identifier strings are modelled as `List Char`; Python's `str.strip` is
  modelled over the same whitespace test as `Char.isWhitespace` (the codes in
  this data set are ASCII digit strings, for which both coincide).
* tabular data is modelled as lists of records, one structure per data frame
  shape; pandas boolean-mask filtering is `List.filter`, `drop_duplicates`
  with keep-first is an explicit first-occurrence deduplication, and
  `sort_values` is modelled by a deterministic comparison sort on the same
  sort key (pandas' default quicksort is not stable either way; no claim
  below relies on the tie order of the sort, and the one place where tie
  order is observable is exhibited as a counterexample).
-/

namespace InvTool

/-- A pandas float scalar: finite rational, an infinity, or NaN (null). -/
inductive PValue : Type where
  | num (q : ℚ)
  | posInf
  | negInf
  | nan
deriving DecidableEq, Repr

namespace PValue

/-- pandas `isna`: only NaN is null; infinities are not null. -/
def isNull : PValue → Bool
  | .nan => true
  | _ => false

/-- IEEE-style multiplication as numpy performs it on float series. -/
def pMul : PValue → PValue → PValue
  | .nan, _ => .nan
  | _, .nan => .nan
  | .num a, .num b => .num (a * b)
  | .num a, .posInf => if 0 < a then .posInf else if a < 0 then .negInf else .nan
  | .num a, .negInf => if 0 < a then .negInf else if a < 0 then .posInf else .nan
  | .posInf, .num b => if 0 < b then .posInf else if b < 0 then .negInf else .nan
  | .negInf, .num b => if 0 < b then .negInf else if b < 0 then .posInf else .nan
  | .posInf, .posInf => .posInf
  | .posInf, .negInf => .negInf
  | .negInf, .posInf => .negInf
  | .negInf, .negInf => .posInf

/-- IEEE-style division as numpy performs it on float series:
dividing a nonzero finite number by zero yields a signed infinity,
`0/0` yields NaN, and NaN propagates. -/
def pDiv : PValue → PValue → PValue
  | .nan, _ => .nan
  | _, .nan => .nan
  | .num a, .num b =>
      if b ≠ 0 then .num (a / b)
      else if 0 < a then .posInf else if a < 0 then .negInf else .nan
  | .num _, .posInf => .num 0
  | .num _, .negInf => .num 0
  | .posInf, .num b => if 0 ≤ b then .posInf else .negInf
  | .negInf, .num b => if 0 ≤ b then .negInf else .posInf
  | .posInf, .posInf => .nan
  | .posInf, .negInf => .nan
  | .negInf, .posInf => .nan
  | .negInf, .negInf => .nan

/-- Comparison `v > 0` as pandas evaluates it (false on NaN). -/
def pGtZero : PValue → Bool
  | .num a => decide (0 < a)
  | .posInf => true
  | _ => false

/-- Comparison `v ≤ q` against a finite threshold (false on NaN). -/
def pLeNum : PValue → ℚ → Bool
  | .num a, q => decide (a ≤ q)
  | .negInf, _ => true
  | _, _ => false

/-- Comparison `v ≥ q` against a finite threshold (false on NaN). -/
def pGeNum : PValue → ℚ → Bool
  | .num a, q => decide (q ≤ a)
  | .posInf, _ => true
  | _, _ => false

/-- pandas `Series.combine_first` on scalars: keep the first value unless it
is null, in which case take the second. -/
def pCombineFirst (a b : PValue) : PValue :=
  if a = .nan then b else a

/-- pandas `Series.where(cond)` on scalars: keep the value where the
condition holds, else NaN. -/
def pWhere (v : PValue) (cond : Bool) : PValue :=
  if cond then v else .nan

@[simp] theorem pMul_num_num (a b : ℚ) : pMul (.num a) (.num b) = .num (a * b) := rfl

@[simp] theorem pDiv_num_num (a b : ℚ) (hb : b ≠ 0) :
    pDiv (.num a) (.num b) = .num (a / b) := by
  simp [pDiv, hb]

@[simp] theorem pCombineFirst_num (a : ℚ) (v : PValue) :
    pCombineFirst (.num a) v = .num a := by
  simp [pCombineFirst]

@[simp] theorem pCombineFirst_nan (v : PValue) : pCombineFirst .nan v = v := by
  simp [pCombineFirst]

@[simp] theorem pWhere_true (v : PValue) : pWhere v true = v := rfl

@[simp] theorem pWhere_false (v : PValue) : pWhere v false = .nan := rfl

@[simp] theorem pGtZero_num (a : ℚ) : pGtZero (.num a) = decide (0 < a) := rfl

@[simp] theorem isNull_num (a : ℚ) : isNull (.num a) = false := rfl

@[simp] theorem pDiv_nan_left (v : PValue) : pDiv .nan v = .nan := by
  cases v <;> rfl

@[simp] theorem pDiv_nan_right (v : PValue) : pDiv v .nan = .nan := by
  cases v <;> rfl

@[simp] theorem pMul_nan_left (v : PValue) : pMul .nan v = .nan := by
  cases v <;> rfl

@[simp] theorem pMul_nan_right (v : PValue) : pMul v .nan = .nan := by
  cases v <;> rfl

end PValue

open PValue

/-- One row of the merged table right before the derived columns are
computed in `JQuantsScreener._merge_all`: the numeric columns have already
been through `pd.to_numeric(..., errors="coerce")`. -/
structure RawRow : Type where
  code : List Char
  price : PValue
  bps : PValue
  dps_result : PValue
  dps_forecast : PValue
  shares_outstanding : PValue
deriving DecidableEq, Repr

/-- One row of the reconciled table produced by
`JQuantsScreener._merge_all`, holding the derived columns. -/
structure DerivedRow : Type where
  code : List Char
  price : PValue
  dps : PValue
  pbr : PValue
  div_yield : PValue
  market_cap : PValue
deriving DecidableEq, Repr

/-- The derived-column computation at the end of
`JQuantsScreener._merge_all`:
`dps = dps_result.combine_first(dps_forecast)`,
`pbr = price / bps`,
`div_yield = (dps / price * 100).where(price > 0)`,
`market_cap = shares_outstanding * price`. -/
def deriveRow (r : RawRow) : DerivedRow :=
  let dps := pCombineFirst r.dps_result r.dps_forecast
  { code := r.code
    price := r.price
    dps := dps
    pbr := pDiv r.price r.bps
    div_yield := pWhere (pMul (pDiv dps r.price) (.num 100)) (pGtZero r.price)
    market_cap := pMul r.shares_outstanding r.price }

example :
    (deriveRow
      { code := ['1','2','3','4'], price := .num 3000, bps := .num 1500,
        dps_result := .num 60, dps_forecast := .nan,
        shares_outstanding := .num 1000 }).pbr = .num 2 := by
  norm_num [deriveRow, pDiv]

example :
    (deriveRow
      { code := ['1','2','3','4'], price := .num 3000, bps := .num 1500,
        dps_result := .num 60, dps_forecast := .nan,
        shares_outstanding := .num 1000 }).div_yield = .num 2 := by
  norm_num [deriveRow]

/-- A reconciled row with a negative (hence non-positive) price but all
inputs present: the valuation ratio and market capitalization are still
computed by `_merge_all`. -/
def c1Row : RawRow :=
  { code := ['1','2','3','4'], price := .num (-100), bps := .num 50,
    dps_result := .num 5, dps_forecast := .nan,
    shares_outstanding := .num 1000 }

/-- Claim C1, counterexample: on a row whose price is non-positive (here
`-100`) with book value per share `50` and shares outstanding `1000`,
`_merge_all` computes a non-null valuation ratio and a non-null market
capitalization, contradicting the claim that every derived field is null
whenever the price is non-positive. Only the yield is guarded by
`.where(price > 0)`. -/
theorem C1_counterexample :
    pGtZero c1Row.price = false
    ∧ isNull (deriveRow c1Row).pbr = false
    ∧ isNull (deriveRow c1Row).market_cap = false
    ∧ isNull (deriveRow c1Row).div_yield = true := by
  refine ⟨by decide, by decide, by decide, by decide⟩

/-- Claim C1, amended: each derived field of a merged row is null whenever
any of its own inputs is null; the yield is additionally null whenever the
price is non-positive; the valuation ratio and the market capitalization
are computed (and may be non-null) even when the price is non-positive. -/
theorem C1_derived_null_amended (r : RawRow) :
    ((isNull r.price = true ∨ isNull r.bps = true) →
      isNull (deriveRow r).pbr = true)
    ∧ ((isNull (pCombineFirst r.dps_result r.dps_forecast) = true
        ∨ isNull r.price = true ∨ pGtZero r.price = false) →
      isNull (deriveRow r).div_yield = true)
    ∧ ((isNull r.shares_outstanding = true ∨ isNull r.price = true) →
      isNull (deriveRow r).market_cap = true) := by
  obtain ⟨c, p, b, dr, df, s⟩ := r
  refine ⟨?_, ?_, ?_⟩
  · rintro (h | h) <;>
    · cases p <;> cases b <;> simp_all [deriveRow, pDiv, isNull]
  · rintro (h | h | h)
    · rcases hd : pCombineFirst dr df with q | _ | _ | _ <;>
        rw [deriveRow] <;> simp_all [isNull, pWhere, pGtZero]
    · cases p <;> simp_all [deriveRow, pWhere, pGtZero, isNull]
    · rw [deriveRow] <;> simp_all [pWhere, isNull]
  · rintro (h | h) <;>
    · cases s <;> cases p <;> simp_all [deriveRow, pMul, isNull]

/-- Witness for the amended C1 theorem: a row with a missing price has a
null valuation ratio. -/
theorem C1_amended_witness :
    (isNull (RawRow.price
        { code := [], price := .nan, bps := .num 50, dps_result := .num 5,
          dps_forecast := .nan, shares_outstanding := .num 1000 }) = true
      ∨ isNull (RawRow.bps
        { code := [], price := .nan, bps := .num 50, dps_result := .num 5,
          dps_forecast := .nan, shares_outstanding := .num 1000 }) = true)
    ∧ isNull (deriveRow
        { code := [], price := .nan, bps := .num 50, dps_result := .num 5,
          dps_forecast := .nan, shares_outstanding := .num 1000 }).pbr = true :=
  ⟨Or.inl (by decide),
    (C1_derived_null_amended
      { code := [], price := .nan, bps := .num 50, dps_result := .num 5,
        dps_forecast := .nan, shares_outstanding := .num 1000 }).1
      (Or.inl (by decide))⟩

/-! ## Threshold filter (`JQuantsScreener._apply_filters`) -/

/-- Python `re.match(r"^\d{4}$", s)` as a Boolean: four digits, allowing
one trailing newline because `$` in Python also matches just before a
final newline. The identifiers in this data set are ASCII, for which
`Char.isDigit` agrees with the regex class `\d`. -/
def matchFourDigitsRe : List Char → Bool
  | [a, b, c, d] => a.isDigit && b.isDigit && c.isDigit && d.isDigit
  | [a, b, c, d, e] => a.isDigit && b.isDigit && c.isDigit && d.isDigit && e == '\n'
  | _ => false

/-- The screener thresholds (`JQuantsScreener.__init__` keyword values). -/
structure ScreenConfig : Type where
  pbr_max : ℚ
  yield_min : ℚ
  market_cap_min : ℚ
  div_cut_years : ℕ
deriving DecidableEq, Repr

/-- `JQuantsScreener._apply_filters`: drop rows with a null among
price/pbr/div_yield/market_cap, then apply the three threshold
comparisons, then keep only codes matching `^\d{4}$`. -/
def apply_filters (cfg : ScreenConfig) (rows : List DerivedRow) : List DerivedRow :=
  ((((rows.filter (fun r =>
      !(isNull r.price || isNull r.pbr || isNull r.div_yield || isNull r.market_cap))).filter
    (fun r => pLeNum r.pbr cfg.pbr_max)).filter
    (fun r => pGeNum r.div_yield cfg.yield_min)).filter
    (fun r => pGeNum r.market_cap cfg.market_cap_min)).filter
    (fun r => matchFourDigitsRe r.code)

/-- The claim's row predicate, written as the spec states it: no null among
the four fields, thresholds respected, and the identifier is exactly four
digits. -/
def passesThresholds (cfg : ScreenConfig) (r : DerivedRow) : Bool :=
  !isNull r.price && !isNull r.pbr && !isNull r.div_yield && !isNull r.market_cap
    && pLeNum r.pbr cfg.pbr_max && pGeNum r.div_yield cfg.yield_min
    && pGeNum r.market_cap cfg.market_cap_min
    && (r.code.length == 4 && r.code.all Char.isDigit)

theorem matchFourDigitsRe_eq_of_le_four (cs : List Char) (h : cs.length ≤ 4) :
    matchFourDigitsRe cs = (cs.length == 4 && cs.all Char.isDigit) := by
  match cs with
  | [] => rfl
  | [a] => simp [matchFourDigitsRe]
  | [a, b] => simp [matchFourDigitsRe]
  | [a, b, c] => simp [matchFourDigitsRe]
  | [a, b, c, d] => simp [matchFourDigitsRe, Bool.and_assoc]
  | a :: b :: c :: d :: e :: t => simp at h

/-- Claim C7: on reconciled rows (whose identifiers are at most four
characters, having been truncated by `str[:4]` in `_merge_all`), the
threshold filter keeps exactly the rows with no null among price,
valuation ratio, yield and market capitalization, valuation ratio ≤ the
configured maximum, yield ≥ the configured minimum, market capitalization
≥ the configured minimum, and a canonical identifier of exactly four
digits; rows with a null derived field are merely dropped. -/
theorem C7_apply_filters_keeps_exactly (cfg : ScreenConfig)
    (rows : List DerivedRow) (hlen : ∀ r ∈ rows, r.code.length ≤ 4) :
    apply_filters cfg rows = rows.filter (passesThresholds cfg) := by
  unfold apply_filters
  rw [List.filter_filter, List.filter_filter, List.filter_filter,
    List.filter_filter]
  refine List.filter_congr ?_
  intro r hr
  rw [matchFourDigitsRe_eq_of_le_four _ (hlen r hr)]
  simp only [passesThresholds, Bool.not_or]
  cases isNull r.price <;> cases isNull r.pbr <;> cases isNull r.div_yield <;>
    cases isNull r.market_cap <;>
    cases pLeNum r.pbr cfg.pbr_max <;>
    cases pGeNum r.div_yield cfg.yield_min <;>
    cases pGeNum r.market_cap cfg.market_cap_min <;> simp

/-- Witness for C7: a two-row table where one row passes every condition
and the other fails the valuation-ratio threshold. -/
theorem C7_witness :
    (∀ r ∈ [DerivedRow.mk ['1','2','3','4'] (.num 500) (.num 15) (.num 1)
              (.num 3) (.num 200),
            DerivedRow.mk ['5','6','7','8'] (.num 500) (.num 15) (.num 3)
              (.num 3) (.num 200)], r.code.length ≤ 4)
    ∧ apply_filters ⟨2, 2, 100, 3⟩
        [DerivedRow.mk ['1','2','3','4'] (.num 500) (.num 15) (.num 1)
          (.num 3) (.num 200),
         DerivedRow.mk ['5','6','7','8'] (.num 500) (.num 15) (.num 3)
          (.num 3) (.num 200)] =
      List.filter (passesThresholds ⟨2, 2, 100, 3⟩)
        [DerivedRow.mk ['1','2','3','4'] (.num 500) (.num 15) (.num 1)
          (.num 3) (.num 200),
         DerivedRow.mk ['5','6','7','8'] (.num 500) (.num 15) (.num 3)
          (.num 3) (.num 200)] :=
  ⟨by decide,
    C7_apply_filters_keeps_exactly ⟨2, 2, 100, 3⟩ _ (by decide)⟩

/-! ## Identifier normalization (`JQuantsScreener._merge_all`, code columns) -/

/-- Python `str.strip()`: remove leading and trailing whitespace. -/
def pyStrip (cs : List Char) : List Char :=
  ((cs.dropWhile Char.isWhitespace).reverse.dropWhile Char.isWhitespace).reverse

/-- Normalization applied to the `listed` and `prices` code columns:
`.astype(str).str.strip().str[:4]`. -/
def normListedPriceCode (cs : List Char) : List Char :=
  (pyStrip cs).take 4

/-- Normalization applied to the `statements` code column:
`.astype(str).str.strip().apply(lambda x: x[:4] if len(x) == 5 else x)`. -/
def normStatementsCode (cs : List Char) : List Char :=
  let t := pyStrip cs
  if t.length = 5 then t.take 4 else t

theorem dropWhile_eq_self_of_none (p : Char → Bool) (l : List Char)
    (h : ∀ c ∈ l, p c = false) : l.dropWhile p = l := by
  cases l with
  | nil => rfl
  | cons a t => simp [List.dropWhile_cons, h a (by simp)]

theorem pyStrip_eq_self (cs : List Char)
    (h : ∀ c ∈ cs, c.isWhitespace = false) : pyStrip cs = cs := by
  unfold pyStrip
  rw [dropWhile_eq_self_of_none _ _ h,
    dropWhile_eq_self_of_none _ _ (by simpa using h)]
  simp

/-- Claim C2, counterexample: a 6-character raw statement identifier is
left unchanged by the statement-column normalization, not truncated to
its leading 4 characters as the claim states for every source. -/
theorem C2_counterexample :
    normStatementsCode ['1','2','3','4','5','6'] = ['1','2','3','4','5','6']
    ∧ normStatementsCode ['1','2','3','4','5','6'] ≠
        (['1','2','3','4','5','6']).take 4 := by
  decide

/-- Claim C2, amended: identifiers are whitespace-stripped; the listing and
price identifiers are then truncated to their leading 4 characters, while
statement identifiers are truncated (dropping exactly the trailing
character) only when exactly 5 characters long and are left unchanged
otherwise. On whitespace-free identifiers, both normalizations leave a
4-character identifier unchanged, both drop exactly the trailing character
of a 5-character identifier, and both are idempotent. -/
theorem C2_normalization_amended (cs : List Char)
    (hws : ∀ c ∈ cs, c.isWhitespace = false) :
    (cs.length = 4 → normListedPriceCode cs = cs ∧ normStatementsCode cs = cs)
    ∧ (cs.length = 5 →
        normListedPriceCode cs = cs.dropLast
        ∧ normStatementsCode cs = cs.dropLast)
    ∧ normListedPriceCode (normListedPriceCode cs) = normListedPriceCode cs
    ∧ normStatementsCode (normStatementsCode cs) = normStatementsCode cs := by
  have hs : pyStrip cs = cs := pyStrip_eq_self cs hws
  have htake : ∀ n : ℕ, pyStrip (cs.take n) = cs.take n := by
    intro n
    exact pyStrip_eq_self _ (fun c hc => hws c (List.mem_of_mem_take hc))
  refine ⟨?_, ?_, ?_, ?_⟩
  · intro h4
    constructor
    · rw [normListedPriceCode, hs, List.take_of_length_le (by omega)]
    · rw [normStatementsCode]
      simp only [hs]
      rw [if_neg (by omega)]
  · intro h5
    have hdl : cs.take 4 = cs.dropLast := by
      rw [List.dropLast_eq_take, h5]
    constructor
    · rw [normListedPriceCode, hs, hdl]
    · rw [normStatementsCode]
      simp only [hs]
      rw [if_pos h5, hdl]
  · simp only [normListedPriceCode, hs, htake, List.take_take]
    norm_num
  · by_cases h5 : cs.length = 5
    · have hinner : normStatementsCode cs = cs.take 4 := by
        rw [normStatementsCode]
        simp only [hs]
        rw [if_pos h5]
      have hlen : (cs.take 4).length = 4 := by
        rw [List.length_take]
        omega
      rw [hinner, normStatementsCode]
      simp only [htake]
      rw [if_neg (by omega)]
    · have hinner : normStatementsCode cs = cs := by
        rw [normStatementsCode]
        simp only [hs]
        rw [if_neg h5]
      rw [hinner, hinner]

/-- Witness for the amended C2 theorem: the 5-character raw statement
identifier `14140` is normalized to `1414` by both normalizations. -/
theorem C2_amended_witness :
    (∀ c ∈ ['1','4','1','4','0'], c.isWhitespace = false)
    ∧ normListedPriceCode ['1','4','1','4','0'] =
        (['1','4','1','4','0']).dropLast
    ∧ normStatementsCode ['1','4','1','4','0'] =
        (['1','4','1','4','0']).dropLast :=
  ⟨by decide,
    (C2_normalization_amended ['1','4','1','4','0'] (by decide)).2.1
      (by decide)⟩

/-! ## Retrying fetch (`JQuantsClient._get`) -/

/-- The observable outcome of one HTTP attempt: a response with a status
code and body, or a transport-level failure (timeout / connection error). -/
inductive AttemptOutcome : Type where
  | status (code : ℕ) (body : List Char)
  | transport
deriving DecidableEq, Repr

/-- How a `_get` call ends: a decoded success body, an immediately
propagated client error (4xx other than 429), or the final `RuntimeError`
after the 4-attempt loop is exhausted. -/
inductive GetOutcome : Type where
  | success (body : List Char)
  | clientError (code : ℕ) (body : List Char)
  | exhausted
deriving DecidableEq, Repr

/-- Trace of a `_get` call: its outcome, the number of HTTP requests
issued, and the sleeps performed (in seconds, in order). -/
structure GetRun : Type where
  result : GetOutcome
  requests : ℕ
  waits : List ℕ
deriving DecidableEq, Repr

/-- The body of the `for attempt in range(4)` loop of `JQuantsClient._get`:
429 sleeps `60*(attempt+1)` and continues; a status below 400 returns the
body; a status below 500 (other than 429) raises immediately; a 5xx sleeps
`10*(attempt+1)` and continues; a transport error sleeps 10 and continues.
`fuel` counts the loop iterations left. -/
def getGo (outcomes : ℕ → AttemptOutcome) : ℕ → ℕ → List ℕ → GetRun
  | 0, attempt, waits => ⟨.exhausted, attempt, waits.reverse⟩
  | fuel + 1, attempt, waits =>
    match outcomes attempt with
    | .transport => getGo outcomes fuel (attempt + 1) (10 :: waits)
    | .status s body =>
      if s = 429 then getGo outcomes fuel (attempt + 1) (60 * (attempt + 1) :: waits)
      else if s < 400 then ⟨.success body, attempt + 1, waits.reverse⟩
      else if s < 500 then ⟨.clientError s body, attempt + 1, waits.reverse⟩
      else getGo outcomes fuel (attempt + 1) (10 * (attempt + 1) :: waits)

/-- `JQuantsClient._get`: up to 4 total attempts. -/
def jq_get (outcomes : ℕ → AttemptOutcome) : GetRun :=
  getGo outcomes 4 0 []

/-- An attempt outcome that the loop retries: a 429, a 5xx, or a
transport failure. -/
def isRetried : AttemptOutcome → Bool
  | .transport => true
  | .status s _ => s == 429 || 500 ≤ s

theorem getGo_step_retried (outcomes : ℕ → AttemptOutcome) (fuel attempt : ℕ)
    (waits : List ℕ) (h : isRetried (outcomes attempt) = true) :
    ∃ w, getGo outcomes (fuel + 1) attempt waits =
      getGo outcomes fuel (attempt + 1) (w :: waits) := by
  cases hout : outcomes attempt with
  | transport => exact ⟨10, by simp [getGo, hout]⟩
  | status s b =>
    by_cases h429 : s = 429
    · exact ⟨60 * (attempt + 1), by simp [getGo, hout, h429]⟩
    · have h5 : 500 ≤ s := by
        simp [isRetried, hout, h429] at h
        exact h
      refine ⟨10 * (attempt + 1), ?_⟩
      simp only [getGo, hout]
      rw [if_neg h429, if_neg (by omega), if_neg (by omega)]

theorem getGo_client_error (outcomes : ℕ → AttemptOutcome) (fuel attempt s : ℕ)
    (body : List Char) (waits : List ℕ)
    (hout : outcomes attempt = .status s body)
    (hs4 : 400 ≤ s) (hs5 : s < 500) (hs429 : s ≠ 429) :
    getGo outcomes (fuel + 1) attempt waits =
      ⟨.clientError s body, attempt + 1, waits.reverse⟩ := by
  simp only [getGo, hout]
  rw [if_neg hs429, if_neg (by omega), if_pos hs5]

/-- Claim C8: a response with a client-error status below 500 other than
rate-limit is never retried: from the attempt that receives it (any
earlier attempts having been retried 429/5xx/transport outcomes), the
error propagates immediately carrying the status code and the response
body, with no further request issued; in particular, when it is the first
response, exactly one attempt is made. -/
theorem C8_client_error_not_retried (outcomes : ℕ → AttemptOutcome)
    (k s : ℕ) (body : List Char) (hk : k < 4)
    (hprev : ∀ j < k, isRetried (outcomes j) = true)
    (hout : outcomes k = .status s body)
    (hs4 : 400 ≤ s) (hs5 : s < 500) (hs429 : s ≠ 429) :
    (jq_get outcomes).result = .clientError s body
    ∧ (jq_get outcomes).requests = k + 1 := by
  interval_cases k
  · rw [jq_get, getGo_client_error outcomes 3 0 s body [] hout hs4 hs5 hs429]
    exact ⟨rfl, rfl⟩
  · obtain ⟨w0, h0⟩ := getGo_step_retried outcomes 3 0 [] (hprev 0 (by omega))
    rw [jq_get, h0, getGo_client_error outcomes 2 1 s body _ hout hs4 hs5 hs429]
    exact ⟨rfl, rfl⟩
  · obtain ⟨w0, h0⟩ := getGo_step_retried outcomes 3 0 [] (hprev 0 (by omega))
    obtain ⟨w1, h1⟩ := getGo_step_retried outcomes 2 1 _ (hprev 1 (by omega))
    rw [jq_get, h0, h1, getGo_client_error outcomes 1 2 s body _ hout hs4 hs5 hs429]
    exact ⟨rfl, rfl⟩
  · obtain ⟨w0, h0⟩ := getGo_step_retried outcomes 3 0 [] (hprev 0 (by omega))
    obtain ⟨w1, h1⟩ := getGo_step_retried outcomes 2 1 _ (hprev 1 (by omega))
    obtain ⟨w2, h2⟩ := getGo_step_retried outcomes 1 2 _ (hprev 2 (by omega))
    rw [jq_get, h0, h1, h2,
      getGo_client_error outcomes 0 3 s body _ hout hs4 hs5 hs429]
    exact ⟨rfl, rfl⟩

/-- Witness for C8: a 404 on the very first attempt propagates with
exactly one request issued. -/
theorem C8_witness :
    (jq_get (fun _ => .status 404 ['n','o'])).result =
      .clientError 404 ['n','o']
    ∧ (jq_get (fun _ => .status 404 ['n','o'])).requests = 1 :=
  C8_client_error_not_retried (fun _ => .status 404 ['n','o']) 0 404
    ['n','o'] (by omega) (fun j hj => absurd hj (by omega)) rfl
    (by omega) (by omega) (by omega)

/-- Claim C4, counterexample: four consecutive rate-limit responses
exhaust the 4-attempt budget — each 429 consumes an attempt — and the
call ends in the final `RuntimeError` (the `exhausted` outcome), after
waiting 60, 120, 180 and 240 seconds. This contradicts the claim that
rate-limit responses never cause the request to raise and do not count
against the 4-attempt budget. -/
theorem C4_counterexample :
    jq_get (fun _ => .status 429 []) =
      ⟨.exhausted, 4, [60, 120, 180, 240]⟩ := by
  decide

/-- Claim C4, amended: a rate-limit response at (0-based) attempt `j`
causes a wait of `60 * (j+1)` seconds followed by a retry and never raises
an HTTP error itself, but it does consume one attempt of the shared
4-attempt budget; the call succeeds once a subsequent attempt returns 200
within 4 total attempts. -/
theorem C4_rate_limit_amended (outcomes : ℕ → AttemptOutcome) (k : ℕ)
    (body : List Char) (hk : k < 4)
    (h429 : ∀ j < k, ∃ b, outcomes j = .status 429 b)
    (h200 : outcomes k = .status 200 body) :
    jq_get outcomes =
      ⟨.success body, k + 1, (List.range k).map (fun j => 60 * (j + 1))⟩ := by
  interval_cases k
  · simp [jq_get, getGo, h200]
  · obtain ⟨b0, h0⟩ := h429 0 (by omega)
    simp [jq_get, getGo, h0, h200, List.range_succ]
  · obtain ⟨b0, h0⟩ := h429 0 (by omega)
    obtain ⟨b1, h1⟩ := h429 1 (by omega)
    simp [jq_get, getGo, h0, h1, h200, List.range_succ]
  · obtain ⟨b0, h0⟩ := h429 0 (by omega)
    obtain ⟨b1, h1⟩ := h429 1 (by omega)
    obtain ⟨b2, h2⟩ := h429 2 (by omega)
    simp [jq_get, getGo, h0, h1, h2, h200, List.range_succ]

/-- Witness for the amended C4 theorem: one 429 followed by a 200 succeeds
on the second attempt after a single 60-second wait. -/
theorem C4_amended_witness :
    jq_get (fun n => if n = 0 then .status 429 [] else .status 200 ['x']) =
      ⟨.success ['x'], 2, [60]⟩ := by
  have h := C4_rate_limit_amended
    (fun n => if n = 0 then .status 429 [] else .status 200 ['x']) 1 ['x']
    (by omega)
    (fun j hj => by
      have hj0 : j = 0 := by omega
      subst hj0
      exact ⟨[], rfl⟩)
    rfl
  simpa using h

/-! ## Pagination (`JQuantsClient._get_paginated`) -/

/-- Request parameters, modelled as an association list the way a Python
dict preserves insertion order. -/
abbrev Params : Type := List (List Char × List Char)

/-- `{**params, "pagination_key": pk}`: replace the value in place when the
key already exists, else append the new binding at the end. -/
def setParam (ps : Params) (k v : List Char) : Params :=
  if ps.any (fun kv => kv.1 == k) then
    ps.map (fun kv => if kv.1 == k then (k, v) else kv)
  else ps ++ [(k, v)]

def paginationKeyName : List Char :=
  ['p','a','g','i','n','a','t','i','o','n','_','k','e','y']

/-- One JSON response of a paginated endpoint: the item array under the
items key (items modelled opaquely as naturals) and the optional
`pagination_key` field. -/
structure PageResponse : Type where
  items : List ℕ
  pagination_key : Option (List Char)
deriving DecidableEq, Repr

/-- Python truthiness of the cursor in `if not pagination_key: break`:
an absent key and an empty string are both falsy. -/
def cursorTruthy : Option (List Char) → Bool
  | none => false
  | some [] => false
  | some (_ :: _) => true

/-- The cursor value used to build the next request (meaningful only when
the cursor is truthy). -/
def cursorValOf (page : PageResponse) : List Char :=
  page.pagination_key.getD []

/-- `JQuantsClient._get_paginated` as a fuelled loop over a response
oracle keyed by the request parameters: accumulate each page's items,
stop when the cursor is absent or empty, otherwise merge the cursor into
the parameters and request the next page. Returns the concatenated items
and the number of requests issued, or `none` if the fuel is exhausted
(the real loop is unbounded). -/
def getPaginatedGo (fetch : Params → PageResponse) :
    ℕ → Params → Option (List ℕ × ℕ)
  | 0, _ => none
  | fuel + 1, params =>
    let page := fetch params
    if cursorTruthy page.pagination_key then
      match getPaginatedGo fetch fuel
          (setParam params paginationKeyName (cursorValOf page)) with
      | none => none
      | some (rest, n) => some (page.items ++ rest, n + 1)
    else some (page.items, 1)

/-- The parameters of the `i`-th page request (0-based): page 0 uses the
caller's params, and each later page merges the previous page's cursor
into the previous page's params. -/
def pageChain (fetch : Params → PageResponse) (p0 : Params) : ℕ → Params
  | 0 => p0
  | i + 1 =>
    setParam (pageChain fetch p0 i) paginationKeyName
      (cursorValOf (fetch (pageChain fetch p0 i)))

theorem pageChain_shift (fetch : Params → PageResponse) (p0 : Params) (i : ℕ) :
    pageChain fetch p0 (i + 1) =
      pageChain fetch (setParam p0 paginationKeyName (cursorValOf (fetch p0))) i := by
  induction i with
  | zero => rfl
  | succ j ih =>
    rw [pageChain, ih, pageChain]

theorem flatMap_range_succ_shift (f : ℕ → List ℕ) (n : ℕ) :
    (List.range (n + 1)).flatMap f =
      f 0 ++ (List.range n).flatMap (fun i => f (i + 1)) := by
  rw [List.range_succ_eq_map]
  simp [List.flatMap_cons, List.flatMap_map, Nat.succ_eq_add_one]

/-- Claim C9: when the cursor chain ends after page `n` (pages `0..n-1`
return a present, non-empty cursor and page `n` returns an absent or
empty one), the paginated get issues exactly one request per page
(`n + 1` requests), feeds each present non-empty cursor back merged into
the request parameters, and returns all pages' item arrays concatenated
in arrival order. -/
theorem C9_pagination (fetch : Params → PageResponse) (p0 : Params)
    (n fuel : ℕ)
    (hmid : ∀ i < n,
      cursorTruthy (fetch (pageChain fetch p0 i)).pagination_key = true)
    (hlast : cursorTruthy (fetch (pageChain fetch p0 n)).pagination_key = false)
    (hfuel : n < fuel) :
    getPaginatedGo fetch fuel p0 =
      some ((List.range (n + 1)).flatMap
        (fun i => (fetch (pageChain fetch p0 i)).items), n + 1) := by
  induction n generalizing p0 fuel with
  | zero =>
    obtain ⟨f, rfl⟩ : ∃ f, fuel = f + 1 := ⟨fuel - 1, by omega⟩
    have h0 := hlast
    rw [pageChain] at h0
    simp [getPaginatedGo, h0, pageChain, List.range_succ]
  | succ m ih =>
    obtain ⟨f, rfl⟩ : ∃ f, fuel = f + 1 := ⟨fuel - 1, by omega⟩
    have h0 := hmid 0 (by omega)
    rw [pageChain] at h0
    have hrec := ih (setParam p0 paginationKeyName (cursorValOf (fetch p0))) f
      (fun i hi => by
        have := hmid (i + 1) (by omega)
        rwa [pageChain_shift] at this)
      (by
        have := hlast
        rwa [pageChain_shift] at this)
      (by omega)
    have hshift : ∀ i, pageChain fetch p0 (i + 1) =
        pageChain fetch (setParam p0 paginationKeyName (cursorValOf (fetch p0))) i :=
      fun i => pageChain_shift fetch p0 i
    simp only [getPaginatedGo, h0, if_true, hrec]
    rw [flatMap_range_succ_shift
      (fun i => (fetch (pageChain fetch p0 i)).items) (m + 1)]
    simp only [hshift]
    rfl

/-- The response oracle of the three-page witness scenario: page 1 carries
cursor `a`, page 2 carries cursor `b`, page 3 carries no cursor. -/
def threePageFetch : Params → PageResponse := fun ps =>
  if ps = [(['d'], ['x'])] then ⟨[1, 2], some ['a']⟩
  else if ps = [(['d'], ['x']), (paginationKeyName, ['a'])] then ⟨[3], some ['b']⟩
  else if ps = [(['d'], ['x']), (paginationKeyName, ['b'])] then ⟨[4, 5], none⟩
  else ⟨[], none⟩

/-- Witness for C9: the three-page sequence yields all three pages' items
in order with exactly 3 requests issued. -/
theorem C9_witness :
    getPaginatedGo threePageFetch 10 [(['d'], ['x'])] =
      some ([1, 2, 3, 4, 5], 3) := by
  have h := C9_pagination threePageFetch [(['d'], ['x'])] 2 10
    (by decide) (by decide) (by omega)
  simpa using h

/-! ## Statement reduction (`JQuantsClient._keep_latest_statements`) -/

/-- One financial-statement record as consumed by the reducer and the
dividend checker: the identifier column, `TypeOfCurrentPeriod` as a string,
`DisclosedDate` after `pd.to_datetime(errors="coerce")` (`none` = NaT,
otherwise a day ordinal), and the numeric columns after
`pd.to_numeric(errors="coerce")` (`none` = NaN). A data frame missing one of
these columns is modelled by every record holding `none` there, which the
code treats identically. -/
structure StmtRec : Type where
  code : List Char
  period : List Char
  disclosed : Option ℤ
  bps : Option ℚ
  dps_result : Option ℚ
  dps_forecast : Option ℚ
  shares_outstanding : Option ℚ
deriving DecidableEq, Repr

/-- `_PERIOD_PRIORITY.get(str(x), 99)`. -/
def periodPriority (p : List Char) : ℕ :=
  if p = ['F','Y'] then 0
  else if p = ['2','Q'] then 1
  else if p = ['Q','3'] then 2
  else if p = ['Q','1'] then 3
  else 99

/-- Sort key of a date column sorted descending with NaT placed last
(pandas `ascending=False` with the default `na_position="last"`). -/
def dateDescKey : Option ℤ → ℕ ×ₗ ℤ
  | some d => toLex (0, -d)
  | none => toLex (1, 0)

/-- Sort key of `sort_values(["_period_priority", "DisclosedDate"],
ascending=[True, False])`: priority ascending, then date descending. -/
def stmtSortKey (r : StmtRec) : ℕ ×ₗ (ℕ ×ₗ ℤ) :=
  toLex (periodPriority r.period, dateDescKey r.disclosed)

def stmtLe (a b : StmtRec) : Prop := stmtSortKey a ≤ stmtSortKey b

instance : DecidableRel stmtLe :=
  fun a b => inferInstanceAs (Decidable (stmtSortKey a ≤ stmtSortKey b))

instance : IsTotal StmtRec stmtLe :=
  ⟨fun a b => le_total (stmtSortKey a) (stmtSortKey b)⟩

instance : IsTrans StmtRec stmtLe :=
  ⟨fun _ _ _ hab hbc => le_trans hab hbc⟩

/-- The reducer's sort. pandas' default quicksort is not stable, so no
particular tie order may be relied upon; this deterministic comparison
sort realizes one legal outcome per input order, which is all the
counterexample below needs and all the amended theorem uses. -/
def sortStatements (l : List StmtRec) : List StmtRec :=
  List.insertionSort stmtLe l

/-- `drop_duplicates(subset=[code_col], keep="first")`: keep each row whose
key has not appeared earlier, processing rows in order. `seen` is the set
of keys already kept. -/
def dedupGo {α : Type} (key : α → List Char) (seen : List (List Char)) :
    List α → List α
  | [] => []
  | x :: rest =>
    if key x ∈ seen then dedupGo key seen rest
    else x :: dedupGo key (key x :: seen) rest

def dedupByKey {α : Type} (key : α → List Char) (l : List α) : List α :=
  dedupGo key [] l

/-- `JQuantsClient._keep_latest_statements`: sort by (period priority asc,
disclosure date desc) and keep the first row per identifier column. -/
def keep_latest_statements (l : List StmtRec) : List StmtRec :=
  dedupByKey StmtRec.code (sortStatements l)

theorem mem_dedupGo {α : Type} (key : α → List Char) (seen : List (List Char))
    (l : List α) (r : α) :
    r ∈ dedupGo key seen l ↔
      key r ∉ seen ∧ l.find? (fun y => key y == key r) = some r := by
  induction l generalizing seen with
  | nil => simp [dedupGo]
  | cons x rest ih =>
    by_cases hmatch : (key x == key r) = true
    · have hkey : key x = key r := by simpa using hmatch
      by_cases hseen : key x ∈ seen
      · rw [dedupGo, if_pos hseen, ih]
        simp only [List.find?, hmatch]
        constructor
        · rintro ⟨hnot, hfind⟩
          exact absurd (hkey ▸ hseen) hnot
        · rintro ⟨hnot, hx⟩
          exact absurd (hkey ▸ hseen) hnot
      · rw [dedupGo, if_neg hseen]
        simp only [List.find?, hmatch]
        constructor
        · intro hmem
          rcases List.mem_cons.mp hmem with rfl | hmem
          · exact ⟨hkey ▸ hseen, rfl⟩
          · obtain ⟨hnot, _⟩ := (ih _).mp hmem
            exact absurd (by simp [hkey]) hnot
        · rintro ⟨hnot, hx⟩
          exact List.mem_cons.mpr (Or.inl (by injection hx with h; exact h.symm))
    · have hbf : (key x == key r) = false := by simpa using hmatch
      have hkey : key x ≠ key r := by simpa using hmatch
      by_cases hseen : key x ∈ seen
      · rw [dedupGo, if_pos hseen, ih]
        simp only [List.find?, hbf]
      · rw [dedupGo, if_neg hseen]
        simp only [List.find?, hbf]
        constructor
        · intro hmem
          rcases List.mem_cons.mp hmem with rfl | hmem
          · exact absurd rfl hkey
          · obtain ⟨hnot, hfind⟩ := (ih _).mp hmem
            refine ⟨fun hc => hnot (List.mem_cons.mpr (Or.inr hc)), hfind⟩
        · rintro ⟨hnot, hfind⟩
          refine List.mem_cons.mpr (Or.inr ((ih _).mpr ⟨?_, hfind⟩))
          intro hc
          rcases List.mem_cons.mp hc with hc | hc
          · exact hkey hc.symm
          · exact hnot hc

theorem mem_dedupByKey {α : Type} (key : α → List Char) (l : List α) (r : α) :
    r ∈ dedupByKey key l ↔ l.find? (fun y => key y == key r) = some r := by
  rw [dedupByKey, mem_dedupGo]
  simp

theorem dedupGo_pairwise {α : Type} (key : α → List Char)
    (seen : List (List Char)) (l : List α) :
    (dedupGo key seen l).Pairwise (fun a b => key a ≠ key b) := by
  induction l generalizing seen with
  | nil => exact List.Pairwise.nil
  | cons x rest ih =>
    rw [dedupGo]
    by_cases hseen : key x ∈ seen
    · rw [if_pos hseen]
      exact ih seen
    · rw [if_neg hseen]
      refine List.Pairwise.cons ?_ (ih _)
      intro b hb
      obtain ⟨hnot, _⟩ := (mem_dedupGo _ _ _ _).mp hb
      intro hc
      exact hnot (List.mem_cons.mpr (Or.inl hc.symm))

theorem countP_le_one_of_pairwise {α : Type} (key : α → List Char)
    (m : List α) (hp : m.Pairwise (fun a b => key a ≠ key b))
    (c : List Char) : m.countP (fun r => key r == c) ≤ 1 := by
  induction m with
  | nil => simp
  | cons x t ih =>
    rw [List.countP_cons]
    rcases List.pairwise_cons.mp hp with ⟨hx, ht⟩
    by_cases hc : key x == c
    · have hzero : t.countP (fun r => key r == c) = 0 := by
        rw [List.countP_eq_zero]
        intro a ha
        have hne := hx a ha
        have hxc : key x = c := by simpa using hc
        simp only [beq_iff_eq]
        exact fun h => hne (hxc.trans h.symm)
      simp [hzero, hc]
    · simp only [hc]
      simpa using ih ht

/-- In a list sorted by `stmtLe`, the first element satisfying a predicate
is `stmtLe`-below every element satisfying it. -/
theorem find?_min_of_sorted (p : StmtRec → Bool) (l : List StmtRec)
    (hs : l.Pairwise stmtLe) (x : StmtRec) (hfind : l.find? p = some x) :
    ∀ y ∈ l, p y = true → stmtLe x y := by
  induction l with
  | nil => simp at hfind
  | cons a t ih =>
    rcases List.pairwise_cons.mp hs with ⟨ha, ht⟩
    by_cases hpa : p a = true
    · simp only [List.find?, hpa] at hfind
      injection hfind with hax
      subst hax
      intro y hy hpy
      rcases List.mem_cons.mp hy with rfl | hy
      · exact le_refl _
      · exact ha y hy
    · have hpaf : p a = false := by simpa using hpa
      simp only [List.find?, hpaf] at hfind
      intro y hy hpy
      rcases List.mem_cons.mp hy with rfl | hy
      · exact absurd hpy hpa
      · exact ih ht hfind y hy hpy

/-- No two same-identifier records of `l` share the full sort key. -/
abbrev NoKeyTies (l : List StmtRec) : Prop :=
  ∀ a ∈ l, ∀ b ∈ l, a.code = b.code → stmtSortKey a = stmtSortKey b → a = b

theorem keep_latest_mem_iff (l : List StmtRec) (hnt : NoKeyTies l)
    (r : StmtRec) :
    r ∈ keep_latest_statements l ↔
      r ∈ l ∧ ∀ s ∈ l, s.code = r.code → stmtSortKey r ≤ stmtSortKey s := by
  have hperm : (sortStatements l).Perm l := List.perm_insertionSort stmtLe l
  have hsorted : (sortStatements l).Pairwise stmtLe :=
    List.sorted_insertionSort stmtLe l
  rw [keep_latest_statements, mem_dedupByKey]
  constructor
  · intro hfind
    have hmem : r ∈ sortStatements l := List.mem_of_find?_eq_some hfind
    refine ⟨hperm.mem_iff.mp hmem, ?_⟩
    intro s hsl hcode
    have hsl2 : s ∈ sortStatements l := hperm.mem_iff.mpr hsl
    exact find?_min_of_sorted _ _ hsorted r hfind s hsl2 (by simp [hcode])
  · rintro ⟨hrl, hmin⟩
    have hrs : r ∈ sortStatements l := hperm.mem_iff.mpr hrl
    have hex : (sortStatements l).find?
        (fun y => y.code == r.code) ≠ none := by
      intro hnone
      rw [List.find?_eq_none] at hnone
      exact absurd (by simp) (hnone r hrs)
    obtain ⟨x, hx⟩ := Option.ne_none_iff_exists.mp hex
    have hx := hx.symm
    have hxp := List.find?_some hx
    have hxcode : x.code = r.code := by simpa using hxp
    have hxmem : x ∈ sortStatements l := List.mem_of_find?_eq_some hx
    have hxl : x ∈ l := hperm.mem_iff.mp hxmem
    have hxr : stmtLe x r := find?_min_of_sorted _ _ hsorted x hx r hrs (by simp)
    have hrx : stmtSortKey r ≤ stmtSortKey x := hmin x hxl hxcode
    have hkeys : stmtSortKey x = stmtSortKey r := le_antisymm hxr hrx
    have hxr2 : x = r := hnt x hxl r hrl hxcode hkeys
    rw [hxr2] at hx
    exact hx

/-- Claim C5, counterexample: two full-tie FY records for the same
identifier with the same disclosure date but different book values. The
reducer keeps whichever comes first after the tie-order-preserving sort,
so the selected record depends on the input order although the two inputs
are permutations of each other. -/
theorem C5_counterexample :
    ([⟨['1','3','0','1','0'], ['F','Y'], some 100, some 1, some 10, none, none⟩,
      ⟨['1','3','0','1','0'], ['F','Y'], some 100, some 2, some 10, none, none⟩]
        : List StmtRec).Perm
      [⟨['1','3','0','1','0'], ['F','Y'], some 100, some 2, some 10, none, none⟩,
       ⟨['1','3','0','1','0'], ['F','Y'], some 100, some 1, some 10, none, none⟩]
    ∧ keep_latest_statements
        [⟨['1','3','0','1','0'], ['F','Y'], some 100, some 1, some 10, none, none⟩,
         ⟨['1','3','0','1','0'], ['F','Y'], some 100, some 2, some 10, none, none⟩] ≠
      keep_latest_statements
        [⟨['1','3','0','1','0'], ['F','Y'], some 100, some 2, some 10, none, none⟩,
         ⟨['1','3','0','1','0'], ['F','Y'], some 100, some 1, some 10, none, none⟩] := by
  constructor
  · exact List.Perm.swap _ _ []
  · decide

/-- Claim C5, amended: provided no two records for the same identifier tie
on both period priority and disclosure date, the reduction keeps exactly
one record per identifier — the one with the lowest period-priority number
(FY = 0, 2Q = 1, Q3 = 2, Q1 = 3, anything else = 99; ties broken by the
most recent disclosure date, missing dates last) — and the kept set is the
same for any input order; with a full tie, which record is kept depends on
the input order. -/
theorem C5_reduction_amended (l1 l2 : List StmtRec) (hperm : l1.Perm l2)
    (hnt : NoKeyTies l1) :
    (∀ r, r ∈ keep_latest_statements l1 ↔
      r ∈ l1 ∧ ∀ s ∈ l1, s.code = r.code → stmtSortKey r ≤ stmtSortKey s)
    ∧ (∀ r, r ∈ keep_latest_statements l1 ↔ r ∈ keep_latest_statements l2)
    ∧ (∀ c, (∃ r ∈ l1, r.code = c) →
        (keep_latest_statements l1).countP (fun r => r.code == c) = 1) := by
  have hnt2 : NoKeyTies l2 := by
    intro a ha b hb
    exact hnt a (hperm.mem_iff.mpr ha) b (hperm.mem_iff.mpr hb)
  refine ⟨keep_latest_mem_iff l1 hnt, ?_, ?_⟩
  · intro r
    rw [keep_latest_mem_iff l1 hnt r, keep_latest_mem_iff l2 hnt2 r]
    constructor
    · rintro ⟨hm, hmin⟩
      exact ⟨hperm.mem_iff.mp hm,
        fun s hs hc => hmin s (hperm.mem_iff.mpr hs) hc⟩
    · rintro ⟨hm, hmin⟩
      exact ⟨hperm.mem_iff.mpr hm,
        fun s hs hc => hmin s (hperm.mem_iff.mp hs) hc⟩
  · rintro c ⟨r0, hr0, hc0⟩
    have hpair : (keep_latest_statements l1).Pairwise
        (fun a b => a.code ≠ b.code) := dedupGo_pairwise _ _ _
    have hle := countP_le_one_of_pairwise StmtRec.code _ hpair c
    have hsorted : (sortStatements l1).Pairwise stmtLe :=
      List.sorted_insertionSort stmtLe l1
    have hpermS : (sortStatements l1).Perm l1 := List.perm_insertionSort stmtLe l1
    have hr0s : r0 ∈ sortStatements l1 := hpermS.mem_iff.mpr hr0
    have hex : (sortStatements l1).find? (fun y => y.code == c) ≠ none := by
      intro hnone
      rw [List.find?_eq_none] at hnone
      exact absurd (by simp [hc0]) (hnone r0 hr0s)
    obtain ⟨x, hx⟩ := Option.ne_none_iff_exists.mp hex
    have hx := hx.symm
    have hxp2 := List.find?_some hx
    have hxcode : x.code = c := by simpa using hxp2
    have hxmem : x ∈ keep_latest_statements l1 := by
      rw [keep_latest_statements, mem_dedupByKey]
      rw [hxcode]
      exact hx
    have hpos : 0 < (keep_latest_statements l1).countP (fun r => r.code == c) := by
      rw [List.countP_pos_iff]
      exact ⟨x, hxmem, by simp [hxcode]⟩
    omega

/-- Witness for the amended C5 theorem: an FY and a Q1 record for the same
identifier, in either order, reduce to the FY record alone. -/
theorem C5_amended_witness :
    (⟨['1','4','1','4','0'], ['F','Y'], some 100, none, some 10, none, none⟩
        ∈ keep_latest_statements
          [⟨['1','4','1','4','0'], ['Q','1'], some 200, none, some 4, none, none⟩,
           ⟨['1','4','1','4','0'], ['F','Y'], some 100, none, some 10, none, none⟩] ↔
      (⟨['1','4','1','4','0'], ['F','Y'], some 100, none, some 10, none, none⟩ : StmtRec)
        ∈ keep_latest_statements
          [⟨['1','4','1','4','0'], ['F','Y'], some 100, none, some 10, none, none⟩,
           ⟨['1','4','1','4','0'], ['Q','1'], some 200, none, some 4, none, none⟩]) :=
  (C5_reduction_amended
    [⟨['1','4','1','4','0'], ['Q','1'], some 200, none, some 4, none, none⟩,
     ⟨['1','4','1','4','0'], ['F','Y'], some 100, none, some 10, none, none⟩]
    [⟨['1','4','1','4','0'], ['F','Y'], some 100, none, some 10, none, none⟩,
     ⟨['1','4','1','4','0'], ['Q','1'], some 200, none, some 4, none, none⟩]
    (List.Perm.swap _ _ [])
    (by decide)).2.1
    ⟨['1','4','1','4','0'], ['F','Y'], some 100, none, some 10, none, none⟩

/-! ## Dividend-trend evaluator (`JQuantsScreener._check_no_dividend_cut`) -/

/-- Sort relation of `annual.sort_values("date", ascending=False)`:
dates descending, NaT last. -/
def dateLe (a b : StmtRec) : Prop :=
  dateDescKey a.disclosed ≤ dateDescKey b.disclosed

instance : DecidableRel dateLe :=
  fun a b => inferInstanceAs (Decidable (dateDescKey a.disclosed ≤ dateDescKey b.disclosed))

instance : IsTotal StmtRec dateLe :=
  ⟨fun a b => le_total (dateDescKey a.disclosed) (dateDescKey b.disclosed)⟩

instance : IsTrans StmtRec dateLe :=
  ⟨fun _ _ _ hab hbc => le_trans hab hbc⟩

def sortByDateDesc (l : List StmtRec) : List StmtRec :=
  List.insertionSort dateLe l

/-- The pair walk at the end of `_has_no_dividend_cut`: false iff some
value is strictly smaller than its immediate successor (newer < older). -/
def noCutPairs : List ℚ → Bool
  | a :: b :: rest => !decide (a < b) && noCutPairs (b :: rest)
  | _ => true

/-- `JQuantsScreener._has_no_dividend_cut` applied to the fetched
statement history of one identifier: empty history passes; keep only FY
records (empty again passes); sort by disclosure date descending; take
the most recent `div_cut_years` rows; drop missing annual dividends;
fewer than 2 values passes; otherwise pass iff no consecutive
newer-strictly-below-older pair exists. -/
def has_no_dividend_cut (n : ℕ) (stmts : List StmtRec) : Bool :=
  if stmts.isEmpty then true
  else
    let annual := stmts.filter (fun r => r.period == ['F','Y'])
    if annual.isEmpty then true
    else
      let vals := ((sortByDateDesc annual).take n).filterMap
        (fun r => r.dps_result)
      if vals.length < 2 then true else noCutPairs vals

/-- Result of `get_statements_for_code` as observed by the caller: an
error (any raised exception) or the fetched list of records. -/
inductive FetchResult : Type where
  | err
  | ok (stmts : List StmtRec)
deriving DecidableEq, Repr

/-- The per-candidate decision of `_check_no_dividend_cut`: a fetch error
is caught and the candidate kept (conservative pass), otherwise the
dividend-cut check decides. -/
def divKeep (n : ℕ) : FetchResult → Bool
  | .err => true
  | .ok stmts => has_no_dividend_cut n stmts

/-- `JQuantsScreener._check_no_dividend_cut`: keep exactly the candidate
rows whose per-identifier decision is a pass (row order preserved by the
boolean-mask selection). -/
def check_no_dividend_cut (n : ℕ) (fetch : List Char → FetchResult)
    (rows : List DerivedRow) : List DerivedRow :=
  rows.filter (fun r => divKeep n (fetch r.code))

/-- The usable annual dividend values as the spec words them: restrict to
annual-period disclosures, sort by disclosure date descending, take the
most recent `n` rows, and drop the missing dividend values. -/
def specUsableDividends (n : ℕ) (stmts : List StmtRec) : List ℚ :=
  ((sortByDateDesc (stmts.filter (fun r => r.period == ['F','Y']))).take n).filterMap
    (fun r => r.dps_result)

/-- The spec-side keep condition of claim C6. -/
def divTrendKeepSpec (n : ℕ) : FetchResult → Prop
  | .err => True
  | .ok stmts =>
      (specUsableDividends n stmts).length < 2
      ∨ noCutPairs (specUsableDividends n stmts) = true

theorem divKeep_iff_spec (n : ℕ) (fr : FetchResult) :
    divKeep n fr = true ↔ divTrendKeepSpec n fr := by
  cases fr with
  | err => simp [divKeep, divTrendKeepSpec]
  | ok stmts =>
    rw [divKeep, divTrendKeepSpec, has_no_dividend_cut]
    by_cases hempty : stmts.isEmpty
    · have hnil : stmts = [] := by simpa using hempty
      subst hnil
      simp [specUsableDividends, sortByDateDesc, List.insertionSort]
    · rw [if_neg hempty]
      by_cases hann : (stmts.filter (fun r => r.period == ['F','Y'])).isEmpty
      · rw [if_pos hann]
        have hnil : stmts.filter (fun r => r.period == ['F','Y']) = [] := by
          simpa using hann
        simp [specUsableDividends, hnil, sortByDateDesc, List.insertionSort]
      · rw [if_neg hann]
        have hv : ((sortByDateDesc
            (stmts.filter (fun r => r.period == ['F','Y']))).take n).filterMap
              (fun r => r.dps_result) = specUsableDividends n stmts := rfl
        rw [hv]
        by_cases hlen : (specUsableDividends n stmts).length < 2
        · simp [hlen]
        · simp [hlen]

/-- Claim C6: a candidate surviving the threshold filter is kept by the
dividend-trend stage if and only if its statement-history fetch fails
(conservative pass), or fewer than 2 usable annual dividend values remain
among the most recent `n` annual-period disclosures sorted by disclosure
date descending, or no consecutive newest-to-oldest pair has the newer
value strictly below the immediately older one. -/
theorem C6_dividend_trend_keeps_iff (n : ℕ) (fetch : List Char → FetchResult)
    (rows : List DerivedRow) (r : DerivedRow) :
    r ∈ check_no_dividend_cut n fetch rows ↔
      r ∈ rows ∧
        (fetch r.code = .err ∨
          ∃ stmts, fetch r.code = .ok stmts ∧
            ((specUsableDividends n stmts).length < 2
              ∨ noCutPairs (specUsableDividends n stmts) = true)) := by
  rw [check_no_dividend_cut, List.mem_filter, divKeep_iff_spec]
  apply and_congr_right
  intro hmem
  cases hfr : fetch r.code with
  | err => simp [divTrendKeepSpec]
  | ok stmts =>
    rw [divTrendKeepSpec]
    constructor
    · intro h
      exact Or.inr ⟨stmts, rfl, h⟩
    · rintro (h | ⟨stmts2, heq, h⟩)
      · exact absurd h (by simp)
      · injection heq with heq2
        exact heq2 ▸ h

example : noCutPairs [10, 10, 12] = false := by decide

example : noCutPairs [12, 10, 10] = true := by decide

example : noCutPairs [10, 12] = false := by decide

example : has_no_dividend_cut 3
    [⟨['1','2','3','4'], ['F','Y'], some 300, none, some 10, none, none⟩,
     ⟨['1','2','3','4'], ['F','Y'], some 200, none, some 12, none, none⟩] = false := by
  decide

example : has_no_dividend_cut 3
    [⟨['1','2','3','4'], ['F','Y'], some 300, none, some 12, none, none⟩,
     ⟨['1','2','3','4'], ['F','Y'], some 200, none, some 10, none, none⟩,
     ⟨['1','2','3','4'], ['Q','1'], some 400, none, some 1, none, none⟩] = true := by
  decide

/-! ## Holdings enrichment (`enrich_holdings`) -/

/-- One held-position row from the document-ingestion collaborator:
its identifier plus opaque position fields. -/
structure HoldingRow : Type where
  code : List Char
  payload : ℕ
deriving DecidableEq, Repr

/-- Result of `enrich_holdings`: either the holdings table returned
unchanged (empty reconciled table) or the left-joined table, each
holdings row paired with its matched reconciled row or `none`
(the joined valuation columns all null). -/
inductive EnrichResult : Type where
  | unchanged (rows : List HoldingRow)
  | joined (rows : List (HoldingRow × Option DerivedRow))
deriving DecidableEq, Repr

/-- pandas `left.merge(right, on="code", how="left")`: for each left row
in order, emit one output row per matching right row (in right order), or
a single row padded with nulls when no right row matches. -/
def leftJoinOnCode (left : List HoldingRow) (right : List DerivedRow) :
    List (HoldingRow × Option DerivedRow) :=
  left.flatMap (fun h =>
    match right.filter (fun m => m.code == h.code) with
    | [] => [(h, none)]
    | ms => ms.map (fun m => (h, some m)))

/-- `enrich_holdings`: return the holdings unchanged when the reconciled
table is empty, else deduplicate the reconciled table by identifier
(keep first) and left-join the holdings against it. -/
def enrich_holdings (holdings : List HoldingRow)
    (merged : List DerivedRow) : EnrichResult :=
  if merged.isEmpty then .unchanged holdings
  else .joined (leftJoinOnCode holdings (dedupByKey DerivedRow.code merged))

theorem filter_dedupByKey_eq_find {α : Type} (key : α → List Char)
    (l : List α) (c : List Char) :
    (dedupByKey key l).filter (fun a => key a == c) =
      (l.find? (fun a => key a == c)).toList := by
  cases hf : l.find? (fun a => key a == c) with
  | none =>
    rw [List.find?_eq_none] at hf
    show (dedupByKey key l).filter (fun a => key a == c) = []
    rw [List.filter_eq_nil_iff]
    intro a ha
    have hmem := (mem_dedupByKey key l a).mp ha
    have hal : a ∈ l := List.mem_of_find?_eq_some hmem
    simpa using hf a hal
  | some x =>
    have hxk := List.find?_some hf
    have hxc : key x = c := by simpa using hxk
    have hxd : x ∈ dedupByKey key l := by
      rw [mem_dedupByKey, hxc]
      exact hf
    have hpair := dedupGo_pairwise key ([] : List (List Char)) l
    obtain ⟨l1, l2, hsplit⟩ := List.append_of_mem hxd
    have hl1 : (l1 ++ x :: l2).Pairwise (fun a b => key a ≠ key b) :=
      hsplit ▸ hpair
    rcases List.pairwise_append.mp hl1 with ⟨hp1, hp2, hcross⟩
    show (dedupByKey key l).filter (fun a => key a == c) = [x]
    rw [hsplit, List.filter_append, List.filter_cons]
    have hnone1 : l1.filter (fun a => key a == c) = [] := by
      rw [List.filter_eq_nil_iff]
      intro a ha
      have hne := hcross a ha x (by simp)
      simp [hxc ▸ hne]
    have hnone2 : l2.filter (fun a => key a == c) = [] := by
      rw [List.filter_eq_nil_iff]
      intro a ha
      have hne := (List.pairwise_cons.mp hp2).1 a ha
      intro hc
      have hac : key a = c := by simpa using hc
      rw [hxc] at hne
      exact hne hac.symm
    rw [hnone1, hnone2]
    simp [hxc]

theorem leftJoin_unique_eq_map (holdings : List HoldingRow)
    (merged : List DerivedRow) :
    leftJoinOnCode holdings (dedupByKey DerivedRow.code merged) =
      holdings.map (fun h =>
        (h, merged.find? (fun m => m.code == h.code))) := by
  induction holdings with
  | nil => rfl
  | cons h t ih =>
    rw [leftJoinOnCode, List.flatMap_cons]
    rw [leftJoinOnCode] at ih
    rw [ih, List.map_cons]
    have hfd := filter_dedupByKey_eq_find DerivedRow.code merged h.code
    cases hf : merged.find? (fun m => m.code == h.code) with
    | none =>
      rw [hf] at hfd
      rw [hfd]
      rfl
    | some x =>
      rw [hf] at hfd
      rw [hfd]
      rfl

/-- Claim C10: the enricher returns the holdings table unchanged when the
reconciled table is empty; otherwise, because the reconciled table is
deduplicated by identifier before the left join, the joined result holds
exactly the original holdings rows in order — none dropped, none
duplicated — each paired with the first reconciled row of its identifier,
or with nulls when its identifier is absent from the reconciled table. -/
theorem C10_enrich_holdings (holdings : List HoldingRow)
    (merged : List DerivedRow) :
    (merged = [] → enrich_holdings holdings merged = .unchanged holdings)
    ∧ (merged ≠ [] →
        enrich_holdings holdings merged =
          .joined (holdings.map (fun h =>
            (h, merged.find? (fun m => m.code == h.code))))
        ∧ (holdings.map (fun h =>
            (h, merged.find? (fun m => m.code == h.code)))).map Prod.fst =
            holdings
        ∧ ∀ h ∈ holdings,
            (merged.find? (fun m => m.code == h.code) = none ↔
              ∀ m ∈ merged, m.code ≠ h.code)) := by
  constructor
  · intro hnil
    subst hnil
    rfl
  · intro hne
    refine ⟨?_, ?_, ?_⟩
    · rw [enrich_holdings, if_neg (by simpa using hne),
        leftJoin_unique_eq_map]
    · induction holdings with
      | nil => rfl
      | cons h t ih => simpa using ih
    · intro h hmem
      simp [List.find?_eq_none]

/-- Witness for C10: two holdings, one matching the single reconciled row
and one absent from it. -/
theorem C10_witness :
    enrich_holdings
        [⟨['1','2','3','4'], 7⟩, ⟨['9','9','9','9'], 8⟩]
        [⟨['1','2','3','4'], .num 500, .num 15, .num 1, .num 3, .num 200⟩] =
      .joined
        [(⟨['1','2','3','4'], 7⟩,
          some ⟨['1','2','3','4'], .num 500, .num 15, .num 1, .num 3, .num 200⟩),
         (⟨['9','9','9','9'], 8⟩, none)] := by
  have h := (C10_enrich_holdings
    [⟨['1','2','3','4'], 7⟩, ⟨['9','9','9','9'], 8⟩]
    [⟨['1','2','3','4'], .num 500, .num 15, .num 1, .num 3, .num 200⟩]).2
    (by simp)
  rw [h.1]
  rfl

/-! ## Trading-date locator (`JQuantsClient.get_latest_trading_date`) -/

/-- Does the regex `\d{4}-\d{2}-\d{2}` match at the head of the list?
(ASCII digits; the service's error bodies are ASCII.) -/
def isoAt : List Char → Bool
  | y1 :: y2 :: y3 :: y4 :: h1 :: m1 :: m2 :: h2 :: d1 :: d2 :: _ =>
    y1.isDigit && y2.isDigit && y3.isDigit && y4.isDigit && h1 == '-'
      && m1.isDigit && m2.isDigit && h2 == '-' && d1.isDigit && d2.isDigit
  | _ => false

/-- `re.findall(r"\d{4}-\d{2}-\d{2}", text)`: leftmost, non-overlapping
matches, scanning left to right. -/
def findAllISOGo : ℕ → List Char → List (List Char)
  | 0, _ => []
  | _ + 1, [] => []
  | fuel + 1, c :: rest =>
    if isoAt (c :: rest) then
      (c :: rest).take 10 :: findAllISOGo fuel ((c :: rest).drop 10)
    else findAllISOGo fuel rest

def findAllISO (cs : List Char) : List (List Char) :=
  findAllISOGo cs.length cs

def digitVal (c : Char) : ℕ := c.toNat - 48

def isLeap (y : ℕ) : Bool := (y % 4 == 0 && y % 100 != 0) || y % 400 == 0

def daysInMonth (y m : ℕ) : ℕ :=
  if m = 2 then (if isLeap y then 29 else 28)
  else if m = 4 ∨ m = 6 ∨ m = 9 ∨ m = 11 then 30
  else 31

/-- `datetime.strptime(s, "%Y-%m-%d")` on a 10-character regex match:
yields the (year, month, day) triple or fails (raising `ValueError` in the
source) on a calendar-invalid combination. -/
def parseISO (cs : List Char) : Option (ℕ × ℕ × ℕ) :=
  match cs with
  | [y1, y2, y3, y4, _, m1, m2, _, d1, d2] =>
    let y := 1000 * digitVal y1 + 100 * digitVal y2 + 10 * digitVal y3 + digitVal y4
    let m := 10 * digitVal m1 + digitVal m2
    let d := 10 * digitVal d1 + digitVal d2
    if 1 ≤ y ∧ 1 ≤ m ∧ m ≤ 12 ∧ 1 ≤ d ∧ d ≤ daysInMonth y m then
      some (y, m, d)
    else none
  | _ => none

/-- Day ordinal of a proleptic-Gregorian date (days since 1970-01-01),
matching Python `datetime` day arithmetic; subtracting one models
`timedelta(days=1)`. -/
def toOrdinal (y m d : ℕ) : ℤ :=
  let yi : ℤ := if m ≤ 2 then (y : ℤ) - 1 else (y : ℤ)
  let era : ℤ := yi / 400
  let yoe : ℤ := yi - era * 400
  let mp : ℤ := ((m : ℤ) + 9) % 12
  let doy : ℤ := (153 * mp + 2) / 5 + (d : ℤ) - 1
  let doe : ℤ := yoe * 365 + yoe / 4 - yoe / 100 + doy
  era * 146097 + doe - 719468

example : toOrdinal 1970 1 1 = 0 := by decide

example : toOrdinal 2025 12 2 - toOrdinal 2023 12 2 = 731 := by decide

/-- What one probe (`self._get("prices/daily_quotes", {"date": ...})`)
looks like to the locator: a decoded response whose `daily_quotes` array
is non-empty or empty, an `HTTPError` with a status and body, or any
other exception. -/
inductive ProbeResult : Type where
  | ok (nonempty : Bool)
  | httpError (status : ℕ) (body : List Char)
  | otherError
deriving DecidableEq, Repr

/-- The backward day-by-day search: probe `c`, return it on a non-empty
data array, otherwise step one day back; any probe failure is treated as
"no data that day". `rem` is the number of probes left (14 at the top). -/
def searchLoopAux (probe : ℤ → ProbeResult) : ℕ → ℤ → Option ℤ
  | 0, _ => none
  | rem + 1, c =>
    match probe c with
    | .ok true => some c
    | _ => searchLoopAux probe rem (c - 1)

def searchLoop (probe : ℤ → ProbeResult) (s : ℤ) : Option ℤ :=
  searchLoopAux probe 14 s

inductive LatestOutcome : Type where
  | found (d : ℤ)
  | exhausted
  | crashed
deriving DecidableEq, Repr

/-- Result of `get_latest_trading_date`: the subscription boundary
recorded on the client (if any) and the outcome — a found trading date,
the final `RuntimeError` after 14 failed probes, or the uncaught
`ValueError` when the extracted boundary text is not a valid date. -/
structure LatestResult : Type where
  subscription_end : Option (ℕ × ℕ × ℕ)
  outcome : LatestOutcome
deriving DecidableEq, Repr

def toOutcome : Option ℤ → LatestOutcome
  | some d => .found d
  | none => .exhausted

/-- `JQuantsClient.get_latest_trading_date`: probe today; a non-empty
answer returns immediately; a 400-status `HTTPError` whose body contains
at least two regex dates records the **last** found date as
`subscription_end` and restarts the backward search from it; every other
failure (or an empty answer) searches backward from today. -/
def get_latest_trading_date (today : ℤ) (probe : ℤ → ProbeResult) :
    LatestResult :=
  match probe today with
  | .ok true => ⟨none, .found today⟩
  | .ok false => ⟨none, toOutcome (searchLoop probe today)⟩
  | .otherError => ⟨none, toOutcome (searchLoop probe today)⟩
  | .httpError s body =>
    if s = 400 then
      if 2 ≤ (findAllISO body).length then
        match parseISO ((findAllISO body).getLast?.getD []) with
        | some ymd =>
          ⟨some ymd,
            toOutcome (searchLoop probe (toOrdinal ymd.1 ymd.2.1 ymd.2.2))⟩
        | none => ⟨none, .crashed⟩
      else ⟨none, toOutcome (searchLoop probe today)⟩
    else ⟨none, toOutcome (searchLoop probe today)⟩

theorem searchLoopAux_step (probe : ℤ → ProbeResult) (m : ℕ) (c : ℤ)
    (hne : probe c ≠ .ok true) :
    searchLoopAux probe (m + 1) c = searchLoopAux probe m (c - 1) := by
  rw [searchLoopAux]
  cases hpc : probe c with
  | ok ne =>
    cases ne with
    | true => exact absurd hpc hne
    | false => rfl
  | httpError st b => rfl
  | otherError => rfl

theorem searchLoopAux_eq_some_iff (probe : ℤ → ProbeResult) (rem : ℕ)
    (c : ℤ) (r : ℤ) :
    searchLoopAux probe rem c = some r ↔
      ∃ k < rem, r = c - k ∧ probe (c - k) = .ok true
        ∧ ∀ j < k, probe (c - j) ≠ .ok true := by
  induction rem generalizing c with
  | zero => simp [searchLoopAux]
  | succ m ih =>
    by_cases hp : probe c = .ok true
    · rw [searchLoopAux, hp]
      constructor
      · intro h
        injection h with h
        refine ⟨0, by omega, by simpa using h.symm, by simpa using hp, ?_⟩
        intro j hj
        omega
      · rintro ⟨k, hk, hr, hpk, hmin⟩
        rcases Nat.eq_zero_or_pos k with rfl | hkpos
        · simp only [Nat.cast_zero, sub_zero] at hr
          rw [hr]
        · have := hmin 0 hkpos
          simp only [Nat.cast_zero, sub_zero] at this
          exact absurd hp this
    · rw [searchLoopAux_step probe m c hp, ih (c - 1)]
      constructor
      · rintro ⟨k, hk, hr, hpk, hmin⟩
        refine ⟨k + 1, by omega, ?_, ?_, ?_⟩
        · push_cast
          omega
        · have harith : c - ((k : ℤ) + 1) = c - 1 - (k : ℤ) := by ring
          push_cast
          rw [harith]
          exact hpk
        · intro j hj
          rcases Nat.eq_zero_or_pos j with rfl | hjpos
          · simpa using hp
          · obtain ⟨j2, rfl⟩ : ∃ j2, j = j2 + 1 := ⟨j - 1, by omega⟩
            have hj2 := hmin j2 (by omega)
            have harith : c - ((j2 : ℤ) + 1) = c - 1 - (j2 : ℤ) := by ring
            push_cast
            rw [harith]
            exact hj2
      · rintro ⟨k, hk, hr, hpk, hmin⟩
        rcases Nat.eq_zero_or_pos k with rfl | hkpos
        · simp only [Nat.cast_zero, sub_zero] at hpk
          exact absurd hpk hp
        · obtain ⟨k2, rfl⟩ : ∃ k2, k = k2 + 1 := ⟨k - 1, by omega⟩
          refine ⟨k2, by omega, ?_, ?_, ?_⟩
          · push_cast at hr
            omega
          · have harith : c - 1 - (k2 : ℤ) = c - ((k2 : ℤ) + 1) := by ring
            rw [harith]
            simpa using hpk
          · intro j hj
            have hj1 := hmin (j + 1) (by omega)
            have harith : c - ((j : ℤ) + 1) = c - 1 - (j : ℤ) := by ring
            push_cast at hj1
            rw [harith] at hj1
            exact hj1


/-- Claim C3, amended: when the today-probe fails with a **400-status**
client error whose body contains at least two ISO dates, the **last**
date occurring in the body (which is the later one only when the body
lists the range in ascending order) is recorded on the client as the
subscription boundary and the search restarts from that date; from the
search-start date at most 14 consecutive days are probed backward, and
the first probed date whose data array is non-empty is returned. -/
theorem C3_locator_amended (today : ℤ) (probe : ℤ → ProbeResult)
    (body ds : List Char) (y m d : ℕ)
    (hprobe : probe today = .httpError 400 body)
    (hlen : 2 ≤ (findAllISO body).length)
    (hlast : (findAllISO body).getLast? = some ds)
    (hparse : parseISO ds = some (y, m, d)) :
    get_latest_trading_date today probe =
      ⟨some (y, m, d), toOutcome (searchLoop probe (toOrdinal y m d))⟩
    ∧ ∀ r, searchLoop probe (toOrdinal y m d) = some r ↔
        ∃ k : ℕ, k < 14 ∧ r = toOrdinal y m d - k
          ∧ probe (toOrdinal y m d - k) = .ok true
          ∧ ∀ j : ℕ, j < k → probe (toOrdinal y m d - j) ≠ .ok true := by
  constructor
  · simp [get_latest_trading_date, hprobe, hlen, hlast, hparse]
  · intro r
    rw [searchLoop]
    exact searchLoopAux_eq_some_iff probe 14 (toOrdinal y m d) r

/-- The error body of the counterexample scenario: the two ISO dates
appear in **descending** order. -/
def c3Body : List Char :=
  "covers the following dates: 2025-12-02 ~ 2023-12-02".toList

def c3Today : ℤ := toOrdinal 2025 12 20

def c3Probe : ℤ → ProbeResult := fun t =>
  if t = c3Today then .httpError 400 c3Body
  else if t = toOrdinal 2023 12 2 then .ok true
  else .ok false

/-- Claim C3, counterexample: the probe fails with a client error whose
body contains exactly the two ISO dates 2025-12-02 and 2023-12-02 (in
that order). The code records `found[-1]` — the last date occurring in
the text, here 2023-12-02 — although the later of the two dates is
2025-12-02, contradicting the claim that the later date is recorded. -/
theorem C3_counterexample :
    findAllISO c3Body = ["2025-12-02".toList, "2023-12-02".toList]
    ∧ (get_latest_trading_date c3Today c3Probe).subscription_end =
        some (2023, 12, 2)
    ∧ toOrdinal 2023 12 2 < toOrdinal 2025 12 2 := by
  refine ⟨by decide, by decide, by decide⟩

/-- The witness scenario: the usual ascending body, the probe failing
today with it, and data present exactly at the boundary date. -/
def c3wBody : List Char :=
  "covers the following dates: 2023-12-02 ~ 2025-12-02".toList

def c3wToday : ℤ := toOrdinal 2025 12 20

def c3wProbe : ℤ → ProbeResult := fun t =>
  if t = c3wToday then .httpError 400 c3wBody
  else if t = toOrdinal 2025 12 2 then .ok true
  else .ok false

/-- Witness for the amended C3 theorem: the ascending body records
2025-12-02, the search restarts there, and the very first probe (the
boundary itself) succeeds. -/
theorem C3_amended_witness :
    get_latest_trading_date c3wToday c3wProbe =
      ⟨some (2025, 12, 2), toOutcome (searchLoop c3wProbe (toOrdinal 2025 12 2))⟩
    ∧ searchLoop c3wProbe (toOrdinal 2025 12 2) = some (toOrdinal 2025 12 2) := by
  have h := C3_locator_amended c3wToday c3wProbe c3wBody
    ("2025-12-02".toList) 2025 12 2 (by decide) (by decide) (by decide)
    (by decide)
  refine ⟨h.1, ?_⟩
  rw [h.2 (toOrdinal 2025 12 2)]
  refine ⟨0, by omega, by simp, by decide, fun j hj => absurd hj (by omega)⟩

end InvTool